import Mathlib

/-!
Verification of the `mpmc` bounded MPMC ring (`src/include/mpmc.hpp`) and the
benchmark harness statistics (`src/bench/harness.cpp`, `src/bench/main.cpp`)
against their natural-language specification.

The embedding is a shallow one over single-threaded executions:

* Tickets and per-slot sequence values are 64-bit unsigned integers in the
  source.  Following the specification ("their 64-bit width is treated as
  practically non-wrapping"), tickets are modelled as unbounded naturals;
  since every valid capacity is a power of two dividing 2^64, slot indexing
  `index & mask` agrees with the source for all reachable values.  The one
  place where 64-bit wrap-around is itself the object of a claim — the
  allocation-size computation in the constructor — is modelled with an
  explicit `% 2^64`.
* Raw slot storage (`aligned_storage_t`) is modelled by `Option`: `none` is
  unconstructed storage, `some v` a constructed element.
* The retry loops of `try_push`/`try_pop` re-read state that a sequential
  execution cannot have changed, so a taken `continue` branch means the loop
  never terminates; the model returns `Option.none` for that (never reachable
  sequentially, as proved below).  Likewise the blocking `push`/`pop` spin
  forever if the sequence value is not already the expected one.
-/

namespace Mpmc

/-- One slot of the ring: the 64-bit sequence field `code_` together with the
raw element storage, modelled as `Option` (`none` = unconstructed). -/
structure Slot (α : Type) where
  code : Nat
  data : Option α
deriving DecidableEq

/-- The ring `MpmcRing<T>`: fixed capacity, index mask, slot buffer and the
two monotone tickets `head_` and `tail_`. -/
structure MpmcRing (α : Type) where
  capacity : Nat
  mask : Nat
  buffer : List (Slot α)
  head : Nat
  tail : Nat
deriving DecidableEq

/-- `MpmcRing::validate_capacity`: requires `c >= 2` and `(c & (c - 1)) == 0`;
throws `std::invalid_argument` (modelled as `Except.error`) otherwise. -/
def validate_capacity (c : Nat) : Except String Nat :=
  if c < 2 then Except.error "capacity must be >= 2"
  else if c &&& (c - 1) ≠ 0 then Except.error "capacity must be a power of 2"
  else Except.ok c

/-- The state the constructor body builds for an already-validated capacity:
slot `i`'s sequence is initialised to `i`, `mask_ = capacity - 1`, and
`head_ = tail_ = 0`. -/
def initRing (α : Type) (c : Nat) : MpmcRing α :=
  { capacity := c
    mask := c - 1
    buffer := (List.range c).map (fun i => { code := i, data := none })
    head := 0
    tail := 0 }

/-- The `MpmcRing` constructor: validates the capacity, then allocates and
initialises the slot array. -/
def make (α : Type) (c : Nat) : Except String (MpmcRing α) := do
  let cap ← validate_capacity c
  pure (initRing α cap)

/-- The slot the ring stores at buffer position `i` (`buffer_[i]`). -/
def slotAt (r : MpmcRing α) (i : Nat) : Slot α :=
  r.buffer.getD i { code := 0, data := none }

/-- `MpmcRing::get_slot`: maps a ticket to its buffer position `index & mask_`. -/
def slot_pos (r : MpmcRing α) (index : Nat) : Nat :=
  index &&& r.mask

/-- Non-blocking `try_push`.  One loop iteration; sequentially the `continue`
branches re-enter the loop with unchanged state, hence `none` (divergence).
The `compare_exchange_weak` on `head_` always succeeds sequentially because
`head_` cannot have changed since it was read. -/
def try_push (r : MpmcRing α) (v : α) : Option (Bool × MpmcRing α) :=
  let ticket := r.head
  let s := slot_pos r ticket
  let code := (slotAt r s).code
  let diff : Int := (code : Int) - (ticket : Int)
  if 0 < diff then
    none
  else if diff < 0 then
    some (false, r)
  else
    some (true,
      { r with head := ticket + 1
               buffer := r.buffer.set s { code := ticket + 1, data := some v } })

/-- Blocking `push`: `fetch_add` claims ticket `head_`, then spins until the
slot's sequence equals the ticket.  Sequentially the sequence never changes,
so the spin terminates only if it is already equal; otherwise `none`. -/
def push (r : MpmcRing α) (v : α) : Option (MpmcRing α) :=
  let ticket := r.head
  let s := slot_pos r ticket
  if (slotAt r s).code = ticket then
    some { r with head := ticket + 1
                  buffer := r.buffer.set s { code := ticket + 1, data := some v } }
  else
    none

/-- Non-blocking `try_pop`.  On success the returned `Option α` is the moved-out
element (`none` would be a read of unconstructed storage, proved unreachable). -/
def try_pop (r : MpmcRing α) : Option (Bool × Option α × MpmcRing α) :=
  let ticket := r.tail
  let s := slot_pos r ticket
  let code := (slotAt r s).code
  let diff : Int := (code : Int) - ((ticket : Int) + 1)
  if 0 < diff then
    none
  else if diff < 0 then
    some (false, none, r)
  else
    some (true, (slotAt r s).data,
      { r with tail := ticket + 1
               buffer := r.buffer.set s { code := ticket + r.capacity, data := none } })

/-- `try_pop(T& out)` as seen by the caller: on failure the output variable
keeps its old value; on success it receives the moved-out element. -/
def try_pop_into (r : MpmcRing α) (out : α) : Option (Bool × α × MpmcRing α) :=
  match try_pop r with
  | none => none
  | some (false, _, r') => some (false, out, r')
  | some (true, d, r') => some (true, d.getD out, r')

/-- Blocking `pop`: `fetch_add` claims ticket `tail_`, spins until the slot's
sequence equals `ticket + 1`, then moves the element out, destroys it and
stores `ticket + capacity`. -/
def pop (r : MpmcRing α) : Option (Option α × MpmcRing α) :=
  let ticket := r.tail
  let s := slot_pos r ticket
  if (slotAt r s).code = ticket + 1 then
    some ((slotAt r s).data,
      { r with tail := ticket + 1
               buffer := r.buffer.set s { code := ticket + r.capacity, data := none } })
  else
    none

/-- `MpmcRing::size`: `min(head - tail, capacity)`, clamped occupancy. -/
def size (r : MpmcRing α) : Nat :=
  min (r.head - r.tail) r.capacity

/-- `MpmcRing::empty`. -/
def isEmpty (r : MpmcRing α) : Bool :=
  size r == 0

/-- `MpmcRing::full`. -/
def isFull (r : MpmcRing α) : Bool :=
  size r == r.capacity

/-- The destructor's element scan: for `idx` from `tail_` to `head_`, destroy
the element in slot `idx & mask_` iff its sequence equals `idx + 1`.  Returns
the number of element destructor invocations.  When `T` is trivially
destructible the scan is compiled out (`if constexpr`), giving 0 calls. -/
def destructorCalls (trivialDtor : Bool) (r : MpmcRing α) : Nat :=
  if trivialDtor then 0
  else ((List.range' r.tail (r.head - r.tail)).filter
          (fun idx => (slotAt r (slot_pos r idx)).code = idx + 1)).length

/-- The quiescent-state invariant of a single-threaded ring, tracking the list
`pushed` of all values successfully pushed so far (ticket `t` pushed
`pushed[t]`).  Tickets in `[tail, head)` occupy full slots (sequence
`t + 1`, element present); the remaining tickets of the current window
`[head, tail + capacity)` have empty slots (sequence `t`, no element). -/
structure Inv (r : MpmcRing α) (pushed : List α) : Prop where
  pow2 : ∃ k, r.capacity = 2 ^ k
  cap2 : 2 ≤ r.capacity
  maskEq : r.mask = r.capacity - 1
  bufLen : r.buffer.length = r.capacity
  tail_le_head : r.tail ≤ r.head
  head_le : r.head ≤ r.tail + r.capacity
  pushedLen : pushed.length = r.head
  fullSlot : ∀ t, r.tail ≤ t → t < r.head →
      (slotAt r (t % r.capacity)).code = t + 1 ∧
      (slotAt r (t % r.capacity)).data = pushed[t]?
  emptySlot : ∀ t, r.head ≤ t → t < r.tail + r.capacity →
      (slotAt r (t % r.capacity)).code = t ∧ (slotAt r (t % r.capacity)).data = none

/-- The state after a successful (non-blocking or blocking) push: the head
ticket is claimed and its slot published with sequence `head + 1`. -/
def pushSucc (r : MpmcRing α) (v : α) : MpmcRing α :=
  { r with head := r.head + 1
           buffer := r.buffer.set (slot_pos r r.head)
             { code := r.head + 1, data := some v } }

/-- The state after a successful (non-blocking or blocking) pop: the tail
ticket is claimed and its slot released with sequence `tail + capacity`. -/
def popSucc (r : MpmcRing α) : MpmcRing α :=
  { r with tail := r.tail + 1
           buffer := r.buffer.set (slot_pos r r.tail)
             { code := r.tail + r.capacity, data := none } }

/-- One completed ring operation (any of the four public mutators). -/
inductive Step : MpmcRing α → MpmcRing α → Prop where
  | tryPushStep {r r' : MpmcRing α} (v : α) (b : Bool) :
      try_push r v = some (b, r') → Step r r'
  | pushStep {r r' : MpmcRing α} (v : α) :
      push r v = some r' → Step r r'
  | tryPopStep {r r' : MpmcRing α} (b : Bool) (o : Option α) :
      try_pop r = some (b, o, r') → Step r r'
  | popStep {r r' : MpmcRing α} (o : Option α) :
      pop r = some (o, r') → Step r r'

/-- States reachable from `r0` by completed operations. -/
def Reachable (r0 r : MpmcRing α) : Prop :=
  Relation.ReflTransGen Step r0 r

/-- One non-blocking operation of an interleaving. -/
inductive Op (α : Type) where
  | tryPushOp : α → Op α
  | tryPopOp : Op α
deriving DecidableEq

/-- Run a list of non-blocking operations, accumulating the values of the
successful pushes and the values returned by the successful pops.  `none`
marks a diverging retry loop or a read of unconstructed storage, neither of
which a reachable single-threaded state can produce. -/
def runOps (r : MpmcRing α) : List (Op α) → List α → List α →
    Option (MpmcRing α × List α × List α)
  | [], accPush, accPop => some (r, accPush, accPop)
  | Op.tryPushOp v :: ops, accPush, accPop =>
    match try_push r v with
    | none => none
    | some (true, r') => runOps r' ops (accPush ++ [v]) accPop
    | some (false, r') => runOps r' ops accPush accPop
  | Op.tryPopOp :: ops, accPush, accPop =>
    match try_pop r with
    | none => none
    | some (true, some v, r') => runOps r' ops accPush (accPop ++ [v])
    | some (true, none, _) => none
    | some (false, _, r') => runOps r' ops accPush accPop

/- ### Benchmark harness statistics (`Results::set_latencies`, worker sampling) -/

/-- The latency-summary fields of `Results::LatencyStats` that the percentile
derivation writes.  `min`, `max` and the floating-point `mean` are outside
the scope of the claims.  All values are nanosecond counts; `spikes` is
`spikes_over_10x_p50`. -/
structure LatencyStats where
  p50 : Nat
  p95 : Nat
  p99 : Nat
  p999 : Nat
  spikes : Nat
deriving DecidableEq

/-- The percentile selection loop of `Results::set_latencies` for one rank:
walk the histogram accumulating `cumulative`; bucket `i` is recorded when the
recorded index is still 0 and the running sum has reached the rank.  The
source runs the four ranks in one pass over `i`; since each rank has its own
sentinel and the running sum is shared, that pass is these four independent
walks. -/
def pctIdxGo (rank : Nat) : Nat → Nat → Nat → List Nat → Nat
  | _, _, idx, [] => idx
  | i, cumulative, idx, h :: rest =>
    let cumulative' := cumulative + h
    let idx' := if idx = 0 ∧ rank ≤ cumulative' then i else idx
    pctIdxGo rank (i + 1) cumulative' idx' rest

/-- The bucket index `Results::set_latencies` selects for a target rank. -/
def pctIdx (rank : Nat) (hist : List Nat) : Nat :=
  pctIdxGo rank 0 0 0 hist

/-- `Results::set_latencies`, percentile and spike part.  `bucket_width` is
the configured bucket width in nanoseconds; `stats.spikes` on entry carries
the overflow spikes already accumulated by the workers (`combine` runs before
`set_latencies`), and the spike loop adds the counts of buckets from
`10 * p50 / bucket_width` on.  Returns `stats` unchanged when the histogram
total is zero. -/
def set_latencies (bucket_width : Nat) (hist : List Nat) (stats : LatencyStats) :
    LatencyStats :=
  let total := hist.sum
  if total = 0 then stats
  else
    let rank50 := (total * 50 + 99) / 100
    let rank95 := (total * 95 + 99) / 100
    let rank99 := (total * 99 + 99) / 100
    let rank999 := (total * 999 + 999) / 1000
    let p50_idx := pctIdx rank50 hist
    let p95_idx := pctIdx rank95 hist
    let p99_idx := pctIdx rank99 hist
    let p999_idx := pctIdx rank999 hist
    let p50 := p50_idx * bucket_width + bucket_width / 2
    let p95 := p95_idx * bucket_width + bucket_width / 2
    let p99 := p99_idx * bucket_width + bucket_width / 2
    let p999 := p999_idx * bucket_width + bucket_width / 2
    let spike_threshold := 10 * p50
    let spike_idx := spike_threshold / bucket_width
    let spikes :=
      if spike_idx < hist.length then stats.spikes + (hist.drop spike_idx).sum
      else stats.spikes
    { p50 := p50, p95 := p95, p99 := p99, p999 := p999, spikes := spikes }

/-- The specification's percentile bucket, written from the spec's words for
comparison: the first bucket whose running sum reaches or exceeds the target
rank (the list length if none does). -/
def specFirstBucketGo (rank : Nat) : Nat → Nat → List Nat → Nat
  | _, i, [] => i
  | cumulative, i, h :: rest =>
    if rank ≤ cumulative + h then i
    else specFirstBucketGo rank (cumulative + h) (i + 1) rest

/-- First bucket whose cumulative count reaches the rank (spec-side rule). -/
def specFirstBucket (rank : Nat) (hist : List Nat) : Nat :=
  specFirstBucketGo rank 0 0 hist

/-- The specification's tail-spike rule, written from the spec's words for
comparison: total count of the buckets whose midpoint `(i + 0.5) * w`
strictly exceeds `10 * p50`, stated integrally as
`(2 * i + 1) * w > 2 * (10 * p50)`. -/
def specMidpointSpikes (w : Nat) (hist : List Nat) (p50 : Nat) : Nat :=
  (((List.range hist.length).filter (fun i => 20 * p50 < (2 * i + 1) * w)).map
      (fun i => hist.getD i 0)).sum

/-- Per-worker sampling state of `Harness::producer` / `Harness::consumer`:
the latency histogram, the overflow counter and the spike counter. -/
structure WorkerStats where
  histogram : List Nat
  overflows : Nat
  spikes : Nat
deriving DecidableEq

/-- `SAMPLE_RATE`: each recorded sample carries weight 100 so the histogram
stays calibrated for total volume. -/
def SAMPLE_RATE : Nat := 100

/-- Recording one sampled latency — the body of the
`(i % SAMPLE_RATE) == 0` branch of the worker loops: add `SAMPLE_RATE` to
bucket `latency / width`, or, when the bucket index is out of range, to the
overflow counter and to the spike counter. -/
def recordSample (bucket_width latency : Nat) (ws : WorkerStats) : WorkerStats :=
  let idx := latency / bucket_width
  if idx < ws.histogram.length then
    { ws with histogram := ws.histogram.set idx (ws.histogram.getD idx 0 + SAMPLE_RATE) }
  else
    { ws with overflows := ws.overflows + SAMPLE_RATE
              spikes := ws.spikes + SAMPLE_RATE }

/- ### Benchmark configuration validation (`parse_config`) -/

/-- The configuration fields `parse_config` validates.  The durations and the
bucket width are signed 64-bit in the source (`std::chrono` counts parsed
with `std::stoll`), hence `Int`; the thread counts, capacity and bucket count
are `std::size_t`, hence `Nat`. -/
structure Config where
  num_producers : Nat
  num_consumers : Nat
  capacity : Nat
  duration_ms : Int
  warmup_ms : Int
  histogram_bucket_width : Int
  histogram_max_buckets : Nat
deriving DecidableEq

/-- `is_power_of_two` from `main.cpp`: `x && !(x & (x - 1))`. -/
def is_power_of_two (x : Nat) : Bool :=
  x != 0 && (x &&& (x - 1)) == 0

/-- The validation block at the end of `parse_config`, in source order; a
failed check throws `std::invalid_argument` and the run does not start. -/
def validate_config (c : Config) : Except String Config :=
  if c.num_producers = 0 then Except.error "num_producers must be > 0"
  else if c.num_consumers = 0 then Except.error "num_consumers must be > 0"
  else if !is_power_of_two c.capacity then Except.error "capacity must be a power of two"
  else if c.duration_ms ≤ c.warmup_ms then
    Except.error "total duration must be greater than warmup time"
  else if c.histogram_bucket_width = 0 then
    Except.error "histogram bucket width must be > 0"
  else if c.histogram_max_buckets = 0 then
    Except.error "histogram bucket count must be > 0"
  else Except.ok c

/-- The byte count the constructor passes to `operator new[]`:
`sizeof(Slot) * capacity_`, computed in `std::size_t` (64-bit, wrapping)
arithmetic with no overflow check. -/
def allocation_bytes (slot_size capacity : Nat) : Nat :=
  (slot_size * capacity) % (2 ^ 64)

/- ### Concrete inputs used by witnesses and counterexamples -/

/-- Fill, half-drain, refill to full, full-drain on a capacity-4 ring. -/
def wrapOps : List (Op Nat) :=
  [Op.tryPushOp 10, Op.tryPushOp 11, Op.tryPushOp 12, Op.tryPushOp 13,
   Op.tryPopOp, Op.tryPopOp,
   Op.tryPushOp 14, Op.tryPushOp 15,
   Op.tryPopOp, Op.tryPopOp, Op.tryPopOp, Op.tryPopOp]

/-- A histogram exhibiting the spike rounding boundary at bucket width 11:
three samples put the derived p50 in bucket 1, and one sample sits in bucket
14, the bucket containing `10 * p50` but with midpoint below it. -/
def spikeHist : List Nat :=
  [1, 1, 0, 0, 0, 0, 0, 0, 0, 0, 0, 0, 0, 0, 1]

/-- A configuration whose histogram bucket width is negative but otherwise
valid. -/
def negWidthConfig : Config :=
  { num_producers := 1
    num_consumers := 1
    capacity := 256
    duration_ms := 15000
    warmup_ms := 2000
    histogram_bucket_width := -1
    histogram_max_buckets := 1024 }

/- ### Power-of-two characterisation of `c & (c - 1) == 0` -/

/-- A power of two has a zero bitwise-and with its predecessor. -/
theorem land_pred_eq_zero_of_pow2 (k : Nat) : (2 ^ k) &&& (2 ^ k - 1) = 0 := by
  have h := Nat.and_pow_two_sub_one_eq_mod (2 ^ k) k
  simp only [Nat.mod_self] at h
  exact h

/-- A nonzero number whose bitwise-and with its predecessor is zero is a power
of two. -/
theorem pow2_of_land_pred_eq_zero {c : Nat} (hc : c ≠ 0)
    (h : c &&& (c - 1) = 0) : ∃ k, c = 2 ^ k := by
  refine ⟨Nat.log 2 c, ?_⟩
  by_contra hne
  have hlow : 2 ^ Nat.log 2 c ≤ c := Nat.pow_log_le_self 2 hc
  have hhigh : c < 2 ^ (Nat.log 2 c + 1) := Nat.lt_pow_succ_log_self (by norm_num) c
  set k := Nat.log 2 c with hk
  have hlt : 2 ^ k < c := lt_of_le_of_ne hlow (fun h' => hne h'.symm)
  -- both c and c - 1 have bit k set
  have hpow : 2 ^ (k + 1) = 2 * 2 ^ k := by ring
  have hc_div : c / 2 ^ k = 1 :=
    Nat.div_eq_of_lt_le (by simpa using hlow) (by simpa [hpow, two_mul] using hhigh)
  have hc1_div : (c - 1) / 2 ^ k = 1 := by
    refine Nat.div_eq_of_lt_le ?_ ?_
    · simp only [one_mul]; omega
    · have : c - 1 < c := by omega
      omega
  have hbit_c : c.testBit k = true := by
    rw [Nat.testBit_to_div_mod, hc_div]; decide
  have hbit_c1 : (c - 1).testBit k = true := by
    rw [Nat.testBit_to_div_mod, hc1_div]; decide
  have : (c &&& (c - 1)).testBit k = true := by
    rw [Nat.testBit_land, hbit_c, hbit_c1]
    rfl
  rw [h, Nat.zero_testBit] at this
  exact Bool.false_ne_true this

/-- `validate_capacity` succeeds exactly on powers of two that are at least 2. -/
theorem validate_capacity_ok_iff (c : Nat) :
    validate_capacity c = Except.ok c ↔ (2 ≤ c ∧ ∃ k, c = 2 ^ k) := by
  unfold validate_capacity
  constructor
  · intro h
    by_cases h2 : c < 2
    · simp [h2] at h
    · by_cases hl : c &&& (c - 1) ≠ 0
      · simp [h2, hl] at h
      · push_neg at hl
        exact ⟨by omega, pow2_of_land_pred_eq_zero (by omega) hl⟩
  · rintro ⟨h2, k, rfl⟩
    have hl := land_pred_eq_zero_of_pow2 k
    simp [Nat.not_lt.mpr h2, hl]

/-- C4, forward content: `make` succeeds iff the capacity is a power of two
at least 2, and otherwise deterministically reports the matching error. -/
theorem make_ok_iff (α : Type) (c : Nat) :
    ((∃ r : MpmcRing α, make α c = Except.ok r) ↔ (2 ≤ c ∧ ∃ k, c = 2 ^ k)) ∧
    (¬(2 ≤ c ∧ ∃ k, c = 2 ^ k) →
      make α c = Except.error
        (if c < 2 then "capacity must be >= 2" else "capacity must be a power of 2")) := by
  constructor
  · constructor
    · rintro ⟨r, hr⟩
      unfold make validate_capacity at hr
      by_cases h2 : c < 2
      · simp [h2] at hr
      · by_cases hl : c &&& (c - 1) ≠ 0
        · simp [h2, hl] at hr
        · push_neg at hl
          exact ⟨by omega, pow2_of_land_pred_eq_zero (by omega) hl⟩
    · rintro ⟨h2, k, rfl⟩
      have hv := (validate_capacity_ok_iff (2 ^ k)).2 ⟨h2, k, rfl⟩
      refine ⟨initRing α (2 ^ k), ?_⟩
      simp [make, hv]
  · intro hnot
    unfold make validate_capacity
    by_cases h2 : c < 2
    · simp [h2]
    · have hl : c &&& (c - 1) ≠ 0 := by
        intro hl0
        exact hnot ⟨by omega, pow2_of_land_pred_eq_zero (by omega) hl0⟩
      simp [h2, hl]

/- ### The single-threaded ring invariant -/

/-- Bridge from the source's `index & mask_` to modular indexing: with a
power-of-two capacity and `mask_ = capacity_ - 1`, the slot position of a
ticket is `index % capacity`. -/
theorem slot_pos_eq_mod (r : MpmcRing α) (hm : r.mask = r.capacity - 1)
    (hp : ∃ k, r.capacity = 2 ^ k) (index : Nat) :
    slot_pos r index = index % r.capacity := by
  obtain ⟨k, hk⟩ := hp
  rw [slot_pos, hm, hk]
  exact Nat.and_pow_two_sub_one_eq_mod index k

theorem getD_set_self (l : List β) (i : Nat) (a d : β) (h : i < l.length) :
    (l.set i a).getD i d = a := by
  rw [List.getD_eq_getElem?_getD, List.getElem?_set_self h]
  rfl

theorem getD_set_ne (l : List β) {i j : Nat} (a d : β) (h : i ≠ j) :
    (l.set i a).getD j d = l.getD j d := by
  rw [List.getD_eq_getElem?_getD, List.getElem?_set_ne h, ← List.getD_eq_getElem?_getD]

/-- Two tickets in one window of `C` consecutive values that map to the same
slot are equal. -/
theorem window_mod_inj {C a t₁ t₂ : Nat} (h₁ : a ≤ t₁) (h₁' : t₁ < a + C)
    (h₂ : a ≤ t₂) (h₂' : t₂ < a + C) (hm : t₁ % C = t₂ % C) : t₁ = t₂ := by
  rcases Nat.le_total t₁ t₂ with hle | hle
  · have hdvd : C ∣ t₂ - t₁ := (Nat.modEq_iff_dvd' hle).mp hm
    have h0 : t₂ - t₁ = 0 := Nat.eq_zero_of_dvd_of_lt hdvd (by omega)
    omega
  · have hdvd : C ∣ t₁ - t₂ := (Nat.modEq_iff_dvd' hle).mp hm.symm
    have h0 : t₁ - t₂ = 0 := Nat.eq_zero_of_dvd_of_lt hdvd (by omega)
    omega

/-- Every slot index has a representative ticket in any window of `C`
consecutive tickets. -/
theorem exists_window_rep (C a s : Nat) (hC : 0 < C) (hs : s < C) :
    ∃ t, a ≤ t ∧ t < a + C ∧ t % C = s := by
  have hdm : C * (a / C) + a % C = a := Nat.div_add_mod a C
  have hmlt : a % C < C := Nat.mod_lt _ hC
  by_cases hcase : s < a % C
  · refine ⟨C * (a / C) + C + s, by omega, by omega, ?_⟩
    have he : C * (a / C) + C + s = C * (a / C + 1) + s := by ring
    rw [he, Nat.mul_add_mod]
    exact Nat.mod_eq_of_lt hs
  · refine ⟨C * (a / C) + s, by omega, by omega, ?_⟩
    rw [Nat.mul_add_mod]
    exact Nat.mod_eq_of_lt hs

theorem inv_pushSucc {r : MpmcRing α} {pushed : List α} (inv : Inv r pushed)
    (hnf : r.head < r.tail + r.capacity) (v : α) :
    Inv (pushSucc r v) (pushed ++ [v]) := by
  have hC : 0 < r.capacity := by have := inv.cap2; omega
  have hth := inv.tail_le_head
  have hpos : slot_pos r r.head = r.head % r.capacity :=
    slot_pos_eq_mod r inv.maskEq inv.pow2 r.head
  have hlt : r.head % r.capacity < r.buffer.length := by
    rw [inv.bufLen]; exact Nat.mod_lt _ hC
  have hAtHead : slotAt (pushSucc r v) (r.head % r.capacity) =
      { code := r.head + 1, data := some v } := by
    rw [pushSucc, slotAt]
    simp only [hpos]
    exact getD_set_self _ _ _ _ hlt
  have hAtNe : ∀ j, j ≠ r.head % r.capacity → slotAt (pushSucc r v) j = slotAt r j := by
    intro j hj
    rw [pushSucc, slotAt, slotAt]
    simp only [hpos]
    exact getD_set_ne _ _ _ (fun h => hj h.symm)
  refine ⟨inv.pow2, inv.cap2, inv.maskEq, ?_, ?_, ?_, ?_, ?_, ?_⟩
  · rw [pushSucc]; simp only [List.length_set]; exact inv.bufLen
  · have := inv.tail_le_head; show r.tail ≤ r.head + 1; omega
  · show r.head + 1 ≤ r.tail + r.capacity; omega
  · simp only [List.length_append, List.length_singleton, inv.pushedLen]
    rfl
  · intro t ht ht'
    have ht2 : r.tail ≤ t := ht
    have ht2' : t < r.head + 1 := ht'
    show (slotAt (pushSucc r v) (t % r.capacity)).code = t + 1 ∧
      (slotAt (pushSucc r v) (t % r.capacity)).data = (pushed ++ [v])[t]?
    rcases Nat.lt_or_ge t r.head with hcase | hcase
    · have hne : t % r.capacity ≠ r.head % r.capacity := by
        intro heq
        have := window_mod_inj (C := r.capacity) (a := r.tail)
          ht2 (by omega) inv.tail_le_head hnf heq
        omega
      rw [hAtNe _ hne]
      have hold := inv.fullSlot t ht2 hcase
      refine ⟨hold.1, ?_⟩
      rw [hold.2]
      rw [List.getElem?_append, if_pos (by rw [inv.pushedLen]; exact hcase)]
    · have hte : t = r.head := by omega
      subst hte
      rw [hAtHead]
      refine ⟨rfl, ?_⟩
      show some v = (pushed ++ [v])[r.head]?
      rw [← inv.pushedLen]
      exact (List.getElem?_concat_length pushed v).symm
  · intro t ht ht'
    have ht2 : r.head + 1 ≤ t := ht
    have ht2' : t < r.tail + r.capacity := ht'
    show (slotAt (pushSucc r v) (t % r.capacity)).code = t ∧
      (slotAt (pushSucc r v) (t % r.capacity)).data = none
    have hne : t % r.capacity ≠ r.head % r.capacity := by
      intro heq
      have := window_mod_inj (C := r.capacity) (a := r.tail)
        (by omega : r.tail ≤ t) (by omega) inv.tail_le_head hnf heq
      omega
    rw [hAtNe _ hne]
    exact inv.emptySlot t (by omega) (by omega)

theorem inv_popSucc {r : MpmcRing α} {pushed : List α} (inv : Inv r pushed)
    (hne : r.tail < r.head) :
    Inv (popSucc r) pushed := by
  have hC : 0 < r.capacity := by have := inv.cap2; omega
  have hhl := inv.head_le
  have hpos : slot_pos r r.tail = r.tail % r.capacity :=
    slot_pos_eq_mod r inv.maskEq inv.pow2 r.tail
  have hlt : r.tail % r.capacity < r.buffer.length := by
    rw [inv.bufLen]; exact Nat.mod_lt _ hC
  have hAtTail : slotAt (popSucc r) (r.tail % r.capacity) =
      { code := r.tail + r.capacity, data := none } := by
    rw [popSucc, slotAt]
    simp only [hpos]
    exact getD_set_self _ _ _ _ hlt
  have hAtNe : ∀ j, j ≠ r.tail % r.capacity → slotAt (popSucc r) j = slotAt r j := by
    intro j hj
    rw [popSucc, slotAt, slotAt]
    simp only [hpos]
    exact getD_set_ne _ _ _ (fun h => hj h.symm)
  refine ⟨inv.pow2, inv.cap2, inv.maskEq, ?_, ?_, ?_, inv.pushedLen, ?_, ?_⟩
  · rw [popSucc]; simp only [List.length_set]; exact inv.bufLen
  · show r.tail + 1 ≤ r.head; omega
  · show r.head ≤ r.tail + 1 + r.capacity; omega
  · intro t ht ht'
    have ht2 : r.tail + 1 ≤ t := ht
    have ht2' : t < r.head := ht'
    show (slotAt (popSucc r) (t % r.capacity)).code = t + 1 ∧
      (slotAt (popSucc r) (t % r.capacity)).data = pushed[t]?
    have hmne : t % r.capacity ≠ r.tail % r.capacity := by
      intro heq
      have := window_mod_inj (C := r.capacity) (a := r.tail)
        (by omega : r.tail ≤ t) (by omega) le_rfl (by omega) heq
      omega
    rw [hAtNe _ hmne]
    exact inv.fullSlot t (by omega) ht2'
  · intro t ht ht'
    have ht2 : r.head ≤ t := ht
    have ht2' : t < r.tail + 1 + r.capacity := ht'
    show (slotAt (popSucc r) (t % r.capacity)).code = t ∧
      (slotAt (popSucc r) (t % r.capacity)).data = none
    rcases Nat.lt_or_ge t (r.tail + r.capacity) with hcase | hcase
    · have hmne : t % r.capacity ≠ r.tail % r.capacity := by
        intro heq
        have := window_mod_inj (C := r.capacity) (a := r.tail)
          (by omega : r.tail ≤ t) (by omega) le_rfl (by omega) heq
        omega
      rw [hAtNe _ hmne]
      exact inv.emptySlot t ht2 hcase
    · have hte : t = r.tail + r.capacity := by omega
      subst hte
      have hm : (r.tail + r.capacity) % r.capacity = r.tail % r.capacity :=
        Nat.add_mod_right r.tail r.capacity
      rw [hm, hAtTail]
      exact ⟨rfl, rfl⟩

/- ### Sequential evaluation of the four operations under the invariant -/

theorem try_push_of_full {r : MpmcRing α} {pushed : List α} (inv : Inv r pushed)
    (hfull : r.head = r.tail + r.capacity) (v : α) :
    try_push r v = some (false, r) := by
  have hC2 := inv.cap2
  have hpos : slot_pos r r.head = r.head % r.capacity :=
    slot_pos_eq_mod r inv.maskEq inv.pow2 r.head
  have hmod : r.head % r.capacity = r.tail % r.capacity := by
    rw [hfull]; exact Nat.add_mod_right r.tail r.capacity
  have hcode : (slotAt r (slot_pos r r.head)).code = r.tail + 1 := by
    rw [hpos, hmod]
    exact (inv.fullSlot r.tail le_rfl (by omega)).1
  simp only [try_push]
  rw [hcode]
  have h1 : ¬(0 < ((r.tail + 1 : Nat) : Int) - (r.head : Int)) := by
    push_cast
    omega
  have h2 : ((r.tail + 1 : Nat) : Int) - (r.head : Int) < 0 := by
    push_cast
    omega
  simp only [h1, if_false, h2, if_true]

theorem try_push_of_not_full {r : MpmcRing α} {pushed : List α} (inv : Inv r pushed)
    (hnf : r.head < r.tail + r.capacity) (v : α) :
    try_push r v = some (true, pushSucc r v) := by
  have hpos : slot_pos r r.head = r.head % r.capacity :=
    slot_pos_eq_mod r inv.maskEq inv.pow2 r.head
  have hcode : (slotAt r (slot_pos r r.head)).code = r.head := by
    rw [hpos]
    exact (inv.emptySlot r.head le_rfl hnf).1
  simp only [try_push]
  rw [hcode]
  have h1 : ¬(0 < ((r.head : Nat) : Int) - (r.head : Int)) := by omega
  have h2 : ¬(((r.head : Nat) : Int) - (r.head : Int) < 0) := by omega
  simp only [h1, if_false, h2]
  rfl

theorem try_pop_of_empty {r : MpmcRing α} {pushed : List α} (inv : Inv r pushed)
    (hempty : r.tail = r.head) :
    try_pop r = some (false, none, r) := by
  have hC : 0 < r.capacity := by have := inv.cap2; omega
  have hpos : slot_pos r r.tail = r.tail % r.capacity :=
    slot_pos_eq_mod r inv.maskEq inv.pow2 r.tail
  have hcode : (slotAt r (slot_pos r r.tail)).code = r.tail := by
    rw [hpos]
    exact (inv.emptySlot r.tail (by omega) (by omega)).1
  simp only [try_pop]
  rw [hcode]
  have h1 : ¬(0 < ((r.tail : Nat) : Int) - ((r.tail : Int) + 1)) := by omega
  have h2 : ((r.tail : Nat) : Int) - ((r.tail : Int) + 1) < 0 := by omega
  simp only [h1, if_false, h2, if_true]

theorem try_pop_of_nonempty {r : MpmcRing α} {pushed : List α} (inv : Inv r pushed)
    (hne : r.tail < r.head) :
    try_pop r = some (true, pushed[r.tail]?, popSucc r) := by
  have hpos : slot_pos r r.tail = r.tail % r.capacity :=
    slot_pos_eq_mod r inv.maskEq inv.pow2 r.tail
  have hslot := inv.fullSlot r.tail le_rfl hne
  have hcode : (slotAt r (slot_pos r r.tail)).code = r.tail + 1 := by
    rw [hpos]; exact hslot.1
  have hdata : (slotAt r (slot_pos r r.tail)).data = pushed[r.tail]? := by
    rw [hpos]; exact hslot.2
  simp only [try_pop]
  rw [hcode]
  have h1 : ¬(0 < ((r.tail + 1 : Nat) : Int) - ((r.tail : Int) + 1)) := by push_cast; omega
  have h2 : ¬(((r.tail + 1 : Nat) : Int) - ((r.tail : Int) + 1) < 0) := by push_cast; omega
  simp only [h1, if_false, h2]
  rw [hdata]
  rfl

theorem push_some {r r' : MpmcRing α} {pushed : List α} (inv : Inv r pushed) (v : α)
    (h : push r v = some r') :
    r.head < r.tail + r.capacity ∧ r' = pushSucc r v := by
  have hhl := inv.head_le
  have hC2 := inv.cap2
  rcases Nat.lt_or_ge r.head (r.tail + r.capacity) with hnf | hf
  · have hcode : (slotAt r (slot_pos r r.head)).code = r.head := by
      rw [slot_pos_eq_mod r inv.maskEq inv.pow2 r.head]
      exact (inv.emptySlot r.head le_rfl hnf).1
    simp only [push] at h
    rw [hcode, if_pos rfl] at h
    exact ⟨hnf, by injection h with h; exact h.symm⟩
  · exfalso
    have hfull : r.head = r.tail + r.capacity := by omega
    have hcode : (slotAt r (slot_pos r r.head)).code = r.tail + 1 := by
      rw [slot_pos_eq_mod r inv.maskEq inv.pow2 r.head, hfull,
        Nat.add_mod_right]
      exact (inv.fullSlot r.tail le_rfl (by omega)).1
    simp only [push] at h
    rw [hcode, if_neg (by omega)] at h
    exact Option.noConfusion h

theorem pop_some {r r' : MpmcRing α} {pushed : List α} {o : Option α} (inv : Inv r pushed)
    (h : pop r = some (o, r')) :
    r.tail < r.head ∧ o = pushed[r.tail]? ∧ r' = popSucc r := by
  have hth := inv.tail_le_head
  have hC : 0 < r.capacity := by have := inv.cap2; omega
  rcases Nat.lt_or_ge r.tail r.head with hne | he
  · have hslot := inv.fullSlot r.tail le_rfl hne
    have hcode : (slotAt r (slot_pos r r.tail)).code = r.tail + 1 := by
      rw [slot_pos_eq_mod r inv.maskEq inv.pow2 r.tail]; exact hslot.1
    have hdata : (slotAt r (slot_pos r r.tail)).data = pushed[r.tail]? := by
      rw [slot_pos_eq_mod r inv.maskEq inv.pow2 r.tail]; exact hslot.2
    simp only [pop] at h
    rw [hcode, if_pos rfl, hdata] at h
    injection h with h
    exact ⟨hne, congrArg Prod.fst h.symm, congrArg Prod.snd h.symm⟩
  · exfalso
    have hempty : r.tail = r.head := by omega
    have hcode : (slotAt r (slot_pos r r.tail)).code = r.tail := by
      rw [slot_pos_eq_mod r inv.maskEq inv.pow2 r.tail]
      exact (inv.emptySlot r.tail (by omega) (by omega)).1
    simp only [pop] at h
    rw [hcode, if_neg (by omega)] at h
    exact Option.noConfusion h

theorem validate_capacity_ok_eq {c cap : Nat} (h : validate_capacity c = Except.ok cap) :
    cap = c := by
  by_cases h2 : c < 2
  · rw [validate_capacity, if_pos h2] at h
    exact absurd h (by simp)
  · by_cases hl : c &&& (c - 1) ≠ 0
    · rw [validate_capacity, if_neg h2, if_pos hl] at h
      exact absurd h (by simp)
    · rw [validate_capacity, if_neg h2, if_neg hl] at h
      injection h with h
      omega

theorem make_eq {α : Type} {c : Nat} {r0 : MpmcRing α} (h : make α c = Except.ok r0) :
    r0 = initRing α c ∧ validate_capacity c = Except.ok c := by
  unfold make at h
  cases hv : validate_capacity c with
  | error e =>
    rw [hv] at h
    exact absurd h (by simp [Bind.bind, Except.bind])
  | ok cap =>
    have hc := validate_capacity_ok_eq hv
    subst hc
    rw [hv] at h
    simp only [Bind.bind, Except.bind, pure, Except.pure, Except.ok.injEq] at h
    exact ⟨h.symm, rfl⟩

theorem slotAt_initRing {α : Type} (c i : Nat) (hi : i < c) :
    slotAt (initRing α c) i = { code := i, data := none } := by
  rw [initRing, slotAt, List.getD_eq_getElem?_getD, List.getElem?_map, List.getElem?_range hi]
  rfl

/-- Construction establishes the invariant with an empty push history. -/
theorem inv_make {α : Type} {c : Nat} {r0 : MpmcRing α} (h : make α c = Except.ok r0) :
    Inv r0 [] := by
  obtain ⟨hr0, hv⟩ := make_eq h
  obtain ⟨h2, hp⟩ := (validate_capacity_ok_iff c).1 hv
  subst hr0
  refine ⟨hp, h2, rfl, by simp [initRing], Nat.le_refl 0, Nat.zero_le _, rfl, ?_, ?_⟩
  · intro t ht ht'
    have ht2 : t < 0 := ht'
    exact absurd ht2 (Nat.not_lt_zero t)
  · intro t ht ht'
    have ht2' : t < 0 + c := ht'
    have htc : t < c := by omega
    have hm : t % c = t := Nat.mod_eq_of_lt htc
    show (slotAt (initRing α c) (t % c)).code = t ∧ (slotAt (initRing α c) (t % c)).data = none
    rw [hm, slotAt_initRing c t htc]
    exact ⟨rfl, rfl⟩

/- ### Reachability by completed single-threaded operations -/

theorem inv_step {r r' : MpmcRing α} (h : Step r r') (hinv : ∃ p, Inv r p) :
    ∃ p, Inv r' p := by
  obtain ⟨p, inv⟩ := hinv
  cases h with
  | tryPushStep v b hop =>
    rcases Nat.lt_or_ge r.head (r.tail + r.capacity) with hnf | hf
    · rw [try_push_of_not_full inv hnf v] at hop
      simp only [Option.some.injEq, Prod.mk.injEq] at hop
      obtain ⟨_, hr'⟩ := hop
      subst hr'
      exact ⟨p ++ [v], inv_pushSucc inv hnf v⟩
    · have hfull : r.head = r.tail + r.capacity := le_antisymm inv.head_le hf
      rw [try_push_of_full inv hfull v] at hop
      simp only [Option.some.injEq, Prod.mk.injEq] at hop
      obtain ⟨_, hr'⟩ := hop
      subst hr'
      exact ⟨p, inv⟩
  | pushStep v hop =>
    obtain ⟨hnf, hr'⟩ := push_some inv v hop
    subst hr'
    exact ⟨p ++ [v], inv_pushSucc inv hnf v⟩
  | tryPopStep b o hop =>
    rcases Nat.lt_or_ge r.tail r.head with hne | he
    · rw [try_pop_of_nonempty inv hne] at hop
      simp only [Option.some.injEq, Prod.mk.injEq] at hop
      obtain ⟨_, _, hr'⟩ := hop
      subst hr'
      exact ⟨p, inv_popSucc inv hne⟩
    · have hempty : r.tail = r.head := le_antisymm inv.tail_le_head he
      rw [try_pop_of_empty inv hempty] at hop
      simp only [Option.some.injEq, Prod.mk.injEq] at hop
      obtain ⟨_, _, hr'⟩ := hop
      subst hr'
      exact ⟨p, inv⟩
  | popStep o hop =>
    obtain ⟨hne, _, hr'⟩ := pop_some inv hop
    subst hr'
    exact ⟨p, inv_popSucc inv hne⟩

/-- All states reachable from a freshly constructed ring satisfy the
invariant for some push history. -/
theorem reachable_inv {α : Type} {c : Nat} {r0 r : MpmcRing α}
    (h0 : make α c = Except.ok r0) (hr : Reachable r0 r) : ∃ p, Inv r p := by
  induction hr with
  | refl => exact ⟨[], inv_make h0⟩
  | tail _ hstep ih => exact inv_step hstep ih

/- ### Single-threaded interleavings of try_push / try_pop -/

theorem runOps_fifo {α : Type} :
    ∀ (ops : List (Op α)) (r : MpmcRing α) (pushed popped : List α),
    Inv r pushed → popped = pushed.take r.tail →
    ∃ r' pushed' popped', runOps r ops pushed popped = some (r', pushed', popped') ∧
      Inv r' pushed' ∧ popped' = pushed'.take r'.tail := by
  intro ops
  induction ops with
  | nil =>
    intro r pushed popped inv hpref
    exact ⟨r, pushed, popped, rfl, inv, hpref⟩
  | cons op ops ih =>
    intro r pushed popped inv hpref
    cases op with
    | tryPushOp v =>
      rcases Nat.lt_or_ge r.head (r.tail + r.capacity) with hnf | hf
      · have hstep := try_push_of_not_full inv hnf v
        have inv' := inv_pushSucc inv hnf v
        have hpref' : popped = (pushed ++ [v]).take (pushSucc r v).tail := by
          rw [hpref]
          show pushed.take r.tail = (pushed ++ [v]).take r.tail
          rw [List.take_append_of_le_length]
          rw [inv.pushedLen]
          exact inv.tail_le_head
        obtain ⟨r', p', q', hrun, hi, hp⟩ := ih (pushSucc r v) (pushed ++ [v]) popped inv' hpref'
        refine ⟨r', p', q', ?_, hi, hp⟩
        simp only [runOps, hstep]
        exact hrun
      · have hfull : r.head = r.tail + r.capacity := le_antisymm inv.head_le hf
        have hstep := try_push_of_full inv hfull v
        obtain ⟨r', p', q', hrun, hi, hp⟩ := ih r pushed popped inv hpref
        refine ⟨r', p', q', ?_, hi, hp⟩
        simp only [runOps, hstep]
        exact hrun
    | tryPopOp =>
      rcases Nat.lt_or_ge r.tail r.head with hne | he
      · have hlt : r.tail < pushed.length := by rw [inv.pushedLen]; exact hne
        have hv : pushed[r.tail]? = some pushed[r.tail] := List.getElem?_eq_getElem hlt
        have hstep := try_pop_of_nonempty inv hne
        rw [hv] at hstep
        have inv' := inv_popSucc inv hne
        have hpref' : popped ++ [pushed[r.tail]] = pushed.take (popSucc r).tail := by
          show popped ++ [pushed[r.tail]] = pushed.take (r.tail + 1)
          rw [hpref, List.take_succ, hv]
          rfl
        obtain ⟨r', p', q', hrun, hi, hp⟩ :=
          ih (popSucc r) pushed (popped ++ [pushed[r.tail]]) inv' hpref'
        refine ⟨r', p', q', ?_, hi, hp⟩
        simp only [runOps, hstep]
        exact hrun
      · have hempty : r.tail = r.head := le_antisymm inv.tail_le_head he
        have hstep := try_pop_of_empty inv hempty
        obtain ⟨r', p', q', hrun, hi, hp⟩ := ih r pushed popped inv hpref
        refine ⟨r', p', q', ?_, hi, hp⟩
        simp only [runOps, hstep]
        exact hrun

/- ### C1: single-threaded FIFO for try_push / try_pop -/

/-- C1: for every single-threaded interleaving of non-blocking pushes and
pops on a ring of valid capacity, the run completes (no retry branch is ever
taken) and the values returned by the successful pops equal the values given
to the successful pushes, in push order — FIFO, including across index
wrap-around. -/
theorem try_ops_fifo (α : Type) (c : Nat) (r0 : MpmcRing α) (ops : List (Op α))
    (h : make α c = Except.ok r0) :
    ∃ r pushedOk popped, runOps r0 ops [] [] = some (r, pushedOk, popped) ∧
      popped = pushedOk.take popped.length := by
  have inv0 := inv_make h
  have h0 : ([] : List α) = ([] : List α).take r0.tail := by simp
  obtain ⟨r, p', q', hrun, hi, hp⟩ := runOps_fifo ops r0 [] [] inv0 h0
  refine ⟨r, p', q', hrun, ?_⟩
  have hlen : (p'.take r.tail).length = r.tail := by
    rw [List.length_take]
    have h1 := hi.tail_le_head
    have h2 := hi.pushedLen
    omega
  rw [hp, hlen]

/-- Witness for C1 at the wrap-around scenario: capacity 4, fill, half-drain,
refill to full, full-drain. -/
theorem try_ops_fifo_witness :
    ∃ r pushedOk popped,
      runOps (initRing Nat 4) wrapOps [] [] = some (r, pushedOk, popped) ∧
      popped = pushedOk.take popped.length :=
  try_ops_fifo Nat 4 (initRing Nat 4) wrapOps rfl

/- ### C2: the per-slot sequence invariant -/

theorem slotAt_pushSucc_head {r : MpmcRing α} {pushed : List α} (inv : Inv r pushed)
    (v : α) :
    slotAt (pushSucc r v) (r.head % r.capacity) = { code := r.head + 1, data := some v } := by
  have hC : 0 < r.capacity := by have := inv.cap2; omega
  have hpos : slot_pos r r.head = r.head % r.capacity :=
    slot_pos_eq_mod r inv.maskEq inv.pow2 r.head
  have hlt : r.head % r.capacity < r.buffer.length := by
    rw [inv.bufLen]; exact Nat.mod_lt _ hC
  rw [pushSucc, slotAt]
  simp only [hpos]
  exact getD_set_self _ _ _ _ hlt

theorem slotAt_popSucc_tail {r : MpmcRing α} {pushed : List α} (inv : Inv r pushed) :
    slotAt (popSucc r) (r.tail % r.capacity) =
      { code := r.tail + r.capacity, data := none } := by
  have hC : 0 < r.capacity := by have := inv.cap2; omega
  have hpos : slot_pos r r.tail = r.tail % r.capacity :=
    slot_pos_eq_mod r inv.maskEq inv.pow2 r.tail
  have hlt : r.tail % r.capacity < r.buffer.length := by
    rw [inv.bufLen]; exact Nat.mod_lt _ hC
  rw [popSucc, slotAt]
  simp only [hpos]
  exact getD_set_self _ _ _ _ hlt

/-- C2: in every reachable single-threaded state, each slot's sequence is
`t` or `t + 1` for a ticket `t` of the slot (the neighbouring-generation
values `t - capacity` and `t + capacity` permitted during concurrent
transitions are covered by the same disjunction); construction initialises
slot `i` to sequence `i`; a completed (blocking or non-blocking) push of
ticket `t` leaves that slot's sequence at `t + 1`; a completed pop of ticket
`t` leaves it at `t + capacity`. -/
theorem slot_sequence_invariant (α : Type) (c : Nat) (r0 r : MpmcRing α)
    (h0 : make α c = Except.ok r0) (hr : Reachable r0 r) :
    (∀ s, s < r.capacity → ∃ t, t % r.capacity = s ∧
        ((slotAt r s).code = t ∨ (slotAt r s).code = t + 1 ∨
         (slotAt r s).code + r.capacity = t ∨ (slotAt r s).code = t + r.capacity)) ∧
    (∀ i, i < c → (slotAt r0 i).code = i) ∧
    (∀ (v : α) (r' : MpmcRing α), push r v = some r' →
        (slotAt r' (r.head % r.capacity)).code = r.head + 1) ∧
    (∀ (v : α) (r' : MpmcRing α), try_push r v = some (true, r') →
        (slotAt r' (r.head % r.capacity)).code = r.head + 1) ∧
    (∀ (o : Option α) (r' : MpmcRing α), pop r = some (o, r') →
        (slotAt r' (r.tail % r.capacity)).code = r.tail + r.capacity) ∧
    (∀ (b : Bool) (o : Option α) (r' : MpmcRing α), try_pop r = some (b, o, r') →
        b = true → (slotAt r' (r.tail % r.capacity)).code = r.tail + r.capacity) := by
  obtain ⟨p, inv⟩ := reachable_inv h0 hr
  have hC : 0 < r.capacity := by have := inv.cap2; omega
  refine ⟨?_, ?_, ?_, ?_, ?_, ?_⟩
  · intro s hs
    obtain ⟨t, hta, htb, htm⟩ := exists_window_rep r.capacity r.tail s hC hs
    rcases Nat.lt_or_ge t r.head with hlt | hge
    · have hc := (inv.fullSlot t hta hlt).1
      rw [htm] at hc
      exact ⟨t, htm, Or.inr (Or.inl hc)⟩
    · have hc := (inv.emptySlot t hge htb).1
      rw [htm] at hc
      exact ⟨t, htm, Or.inl hc⟩
  · intro i hi
    obtain ⟨hr0, _⟩ := make_eq h0
    rw [hr0, slotAt_initRing c i hi]
  · intro v r' hp'
    obtain ⟨hnf, hr'⟩ := push_some inv v hp'
    subst hr'
    rw [slotAt_pushSucc_head inv v]
  · intro v r' hp'
    rcases Nat.lt_or_ge r.head (r.tail + r.capacity) with hnf | hf
    · rw [try_push_of_not_full inv hnf v] at hp'
      simp only [Option.some.injEq, Prod.mk.injEq] at hp'
      obtain ⟨_, hr'⟩ := hp'
      subst hr'
      rw [slotAt_pushSucc_head inv v]
    · have hfull : r.head = r.tail + r.capacity := le_antisymm inv.head_le hf
      rw [try_push_of_full inv hfull v] at hp'
      simp only [Option.some.injEq, Prod.mk.injEq] at hp'
      exact absurd hp'.1 (by simp)
  · intro o r' hp'
    obtain ⟨hne, _, hr'⟩ := pop_some inv hp'
    subst hr'
    rw [slotAt_popSucc_tail inv]
  · intro b o r' hp' hb
    subst hb
    rcases Nat.lt_or_ge r.tail r.head with hne | he
    · rw [try_pop_of_nonempty inv hne] at hp'
      simp only [Option.some.injEq, Prod.mk.injEq] at hp'
      obtain ⟨_, _, hr'⟩ := hp'
      subst hr'
      rw [slotAt_popSucc_tail inv]
    · have hempty : r.tail = r.head := le_antisymm inv.tail_le_head he
      rw [try_pop_of_empty inv hempty] at hp'
      simp only [Option.some.injEq, Prod.mk.injEq] at hp'
      exact absurd hp'.1 (by simp)

/-- Witness for C2 at a freshly constructed ring of capacity 2. -/
theorem slot_sequence_invariant_witness :
    (∀ s, s < (initRing Nat 2).capacity → ∃ t, t % (initRing Nat 2).capacity = s ∧
        ((slotAt (initRing Nat 2) s).code = t ∨ (slotAt (initRing Nat 2) s).code = t + 1 ∨
         (slotAt (initRing Nat 2) s).code + (initRing Nat 2).capacity = t ∨
         (slotAt (initRing Nat 2) s).code = t + (initRing Nat 2).capacity)) ∧
    (∀ i, i < 2 → (slotAt (initRing Nat 2) i).code = i) ∧
    (∀ (v : Nat) (r' : MpmcRing Nat), push (initRing Nat 2) v = some r' →
        (slotAt r' ((initRing Nat 2).head % (initRing Nat 2).capacity)).code =
          (initRing Nat 2).head + 1) ∧
    (∀ (v : Nat) (r' : MpmcRing Nat), try_push (initRing Nat 2) v = some (true, r') →
        (slotAt r' ((initRing Nat 2).head % (initRing Nat 2).capacity)).code =
          (initRing Nat 2).head + 1) ∧
    (∀ (o : Option Nat) (r' : MpmcRing Nat), pop (initRing Nat 2) = some (o, r') →
        (slotAt r' ((initRing Nat 2).tail % (initRing Nat 2).capacity)).code =
          (initRing Nat 2).tail + (initRing Nat 2).capacity) ∧
    (∀ (b : Bool) (o : Option Nat) (r' : MpmcRing Nat),
        try_pop (initRing Nat 2) = some (b, o, r') → b = true →
        (slotAt r' ((initRing Nat 2).tail % (initRing Nat 2).capacity)).code =
          (initRing Nat 2).tail + (initRing Nat 2).capacity) :=
  slot_sequence_invariant Nat 2 (initRing Nat 2) (initRing Nat 2) rfl
    Relation.ReflTransGen.refl

/- ### C3: boundary behaviour at capacity 2, fresh rings and full rings -/

/-- C3: on a capacity-2 ring two non-blocking pushes succeed, a third fails,
and after one pop the previously rejected push succeeds; in general a
non-blocking pop on a fresh ring fails, and a non-blocking push on a full
ring fails. -/
theorem capacity_two_boundary :
    (try_push (initRing Nat 2) 1 = some (true, pushSucc (initRing Nat 2) 1) ∧
     try_push (pushSucc (initRing Nat 2) 1) 2 =
       some (true, pushSucc (pushSucc (initRing Nat 2) 1) 2) ∧
     try_push (pushSucc (pushSucc (initRing Nat 2) 1) 2) 3 =
       some (false, pushSucc (pushSucc (initRing Nat 2) 1) 2) ∧
     try_pop (pushSucc (pushSucc (initRing Nat 2) 1) 2) =
       some (true, some 1, popSucc (pushSucc (pushSucc (initRing Nat 2) 1) 2)) ∧
     try_push (popSucc (pushSucc (pushSucc (initRing Nat 2) 1) 2)) 3 =
       some (true, pushSucc (popSucc (pushSucc (pushSucc (initRing Nat 2) 1) 2)) 3)) ∧
    (∀ (α : Type) (c : Nat) (r0 : MpmcRing α), make α c = Except.ok r0 →
      try_pop r0 = some (false, none, r0)) ∧
    (∀ (α : Type) (c : Nat) (r0 r : MpmcRing α) (v : α), make α c = Except.ok r0 →
      Reachable r0 r → isFull r = true → try_push r v = some (false, r)) := by
  refine ⟨by decide, ?_, ?_⟩
  · intro α c r0 h
    have inv := inv_make h
    obtain ⟨hr0, _⟩ := make_eq h
    have hemp : r0.tail = r0.head := by subst hr0; rfl
    exact try_pop_of_empty inv hemp
  · intro α c r0 r v h0 hrch hfull
    obtain ⟨p, inv⟩ := reachable_inv h0 hrch
    have h1 : min (r.head - r.tail) r.capacity = r.capacity := by
      have := of_decide_eq_true hfull
      simpa [isFull, size] using hfull
    have h2 := inv.head_le
    have h3 := inv.tail_le_head
    have hfe : r.head = r.tail + r.capacity := by omega
    exact try_push_of_full inv hfe v

/-- Witness for C3: the fresh-ring conjunct at capacity 2, and the full-ring
conjunct at the capacity-2 ring holding two elements. -/
theorem capacity_two_boundary_witness :
    try_pop (initRing Nat 2) = some (false, none, initRing Nat 2) ∧
    try_push (pushSucc (pushSucc (initRing Nat 2) 1) 2) 9 =
      some (false, pushSucc (pushSucc (initRing Nat 2) 1) 2) :=
  ⟨capacity_two_boundary.2.1 Nat 2 (initRing Nat 2) rfl,
   capacity_two_boundary.2.2 Nat 2 (initRing Nat 2)
     (pushSucc (pushSucc (initRing Nat 2) 1) 2) 9 rfl
     (Relation.ReflTransGen.tail
       (Relation.ReflTransGen.single
         (@Step.tryPushStep Nat (initRing Nat 2) (pushSucc (initRing Nat 2) 1) 1 true
           (by decide)))
       (@Step.tryPushStep Nat (pushSucc (initRing Nat 2) 1)
         (pushSucc (pushSucc (initRing Nat 2) 1) 2) 2 true (by decide)))
     (by decide)⟩

/- ### C5: destructor accounting -/

/-- C5: destroying a reachable single-threaded ring holding `k` live elements
runs the element destructor exactly `k` times (`k = size r = head - tail`,
one call per slot of the live range `[tail, head)`, all of which carry
sequence `index + 1`); for trivially destructible element types the scan is
skipped and no destructor runs. -/
theorem destructor_call_count (α : Type) (c : Nat) (r0 r : MpmcRing α)
    (h0 : make α c = Except.ok r0) (hr : Reachable r0 r) :
    destructorCalls false r = size r ∧ size r = r.head - r.tail ∧
    destructorCalls true r = 0 := by
  obtain ⟨p, inv⟩ := reachable_inv h0 hr
  have h2 := inv.head_le
  have h3 := inv.tail_le_head
  have hsz : size r = r.head - r.tail := by
    rw [size]; omega
  refine ⟨?_, hsz, rfl⟩
  rw [hsz, destructorCalls, if_neg (by simp)]
  have hall : ∀ idx ∈ List.range' r.tail (r.head - r.tail),
      decide ((slotAt r (slot_pos r idx)).code = idx + 1) = true := by
    intro idx hidx
    rw [List.mem_range'_1] at hidx
    have hlt : idx < r.head := by omega
    have hc := (inv.fullSlot idx hidx.1 hlt).1
    rw [slot_pos_eq_mod r inv.maskEq inv.pow2 idx, hc]
    simp
  rw [List.filter_eq_self.mpr hall, List.length_range']

/-- Witness for C5: a capacity-2 ring holding one element after a push. -/
theorem destructor_call_count_witness :
    destructorCalls false (pushSucc (initRing Nat 2) 5) =
      size (pushSucc (initRing Nat 2) 5) ∧
    size (pushSucc (initRing Nat 2) 5) =
      (pushSucc (initRing Nat 2) 5).head - (pushSucc (initRing Nat 2) 5).tail ∧
    destructorCalls true (pushSucc (initRing Nat 2) 5) = 0 :=
  destructor_call_count Nat 2 (initRing Nat 2) (pushSucc (initRing Nat 2) 5) rfl
    (Relation.ReflTransGen.single (Step.tryPushStep 5 true (by decide)))

/- ### C6: failed non-blocking operations have no side effects -/

/-- C6: a `try_push` that returns `false` leaves the ring — head, tail, every
slot sequence and every stored element — unchanged and constructs nothing
(the failure path returns before any use of its argument, so the argument is
not moved from); a `try_pop` that returns `false` likewise leaves the ring
and the caller's output variable unchanged and destroys nothing. -/
theorem failed_ops_no_side_effects (α : Type) :
    (∀ (r r' : MpmcRing α) (v : α), try_push r v = some (false, r') → r' = r) ∧
    (∀ (r r' : MpmcRing α) (out x : α), try_pop_into r out = some (false, x, r') →
      r' = r ∧ x = out) := by
  constructor
  · intro r r' v h
    simp only [try_push] at h
    split_ifs at h
    · simp only [Option.some.injEq, Prod.mk.injEq] at h
      exact h.2.symm
    · simp only [Option.some.injEq, Prod.mk.injEq] at h
      exact absurd h.1 (by simp)
  · intro r r' out x h
    have hr : ∀ (o : Option α) (rr : MpmcRing α), try_pop r = some (false, o, rr) → rr = r := by
      intro o rr hp
      simp only [try_pop] at hp
      split_ifs at hp
      · simp only [Option.some.injEq, Prod.mk.injEq] at hp
        exact hp.2.2.symm
      · simp only [Option.some.injEq, Prod.mk.injEq] at hp
        exact absurd hp.1 (by simp)
    rw [try_pop_into] at h
    cases hp : try_pop r with
    | none =>
      rw [hp] at h
      exact Option.noConfusion h
    | some trip =>
      obtain ⟨b, o, rr⟩ := trip
      rw [hp] at h
      cases b
      · simp only [Option.some.injEq, Prod.mk.injEq] at h
        obtain ⟨_, hx, hr'⟩ := h
        exact ⟨hr'.symm.trans (hr o rr hp), hx.symm⟩
      · simp only [Option.some.injEq, Prod.mk.injEq] at h
        exact absurd h.1 (by simp)

/-- Witness for C6: a failing push on a full capacity-2 ring and a failing
pop on a fresh capacity-2 ring. -/
theorem failed_ops_no_side_effects_witness :
    pushSucc (pushSucc (initRing Nat 2) 1) 2 = pushSucc (pushSucc (initRing Nat 2) 1) 2 ∧
    (initRing Nat 2 = initRing Nat 2 ∧ (7 : Nat) = 7) :=
  ⟨(failed_ops_no_side_effects Nat).1 (pushSucc (pushSucc (initRing Nat 2) 1) 2)
      (pushSucc (pushSucc (initRing Nat 2) 1) 2) 9 (by decide),
   (failed_ops_no_side_effects Nat).2 (initRing Nat 2) (initRing Nat 2) 7 7 (by decide)⟩

/- ### C7: percentile derivation (sentinel bug at bucket 0) -/

/-- C7, divergence at the failing input: the percentile walk uses
`p_idx == 0` both as "not yet found" and as the legitimate answer "bucket 0",
so when the first bucket already reaches the target rank the walk re-fires on
the next bucket.  On histogram `[1, 0]` (total 1, rank `ceil(1 * 0.5) = 1`)
the source selects bucket 1 and reports midpoint `1 * w + w / 2 = 150` for
`w = 100`, while the specified first crossing bucket is 0 with midpoint 50. -/
theorem percentile_bucket_zero_bug :
    pctIdx 1 [1, 0] = 1 ∧ specFirstBucket 1 [1, 0] = 0 ∧
    (set_latencies 100 [1, 0] ⟨0, 0, 0, 0, 0⟩).p50 = 150 ∧
    specFirstBucket 1 [1, 0] * 100 + 100 / 2 = 50 := by
  decide

/- ### C8: tail spike counting -/

/-- C8 counterexample: at bucket width 11 on `spikeHist` the derived p50 is
16, so `10 * p50 = 160` falls inside bucket 14 (`[154, 165)`), whose midpoint
159.5 does not exceed 160; the source counts that bucket's sample as a spike
(1), while the claimed midpoint rule counts none, and there are no
overflows.  The claim's "exactly those buckets whose midpoint exceeds
`10 * p50`" is therefore false on the code. -/
theorem spike_midpoint_counterexample :
    (set_latencies 11 spikeHist ⟨0, 0, 0, 0, 0⟩).p50 = 16 ∧
    (set_latencies 11 spikeHist ⟨0, 0, 0, 0, 0⟩).spikes = 1 ∧
    specMidpointSpikes 11 spikeHist (set_latencies 11 spikeHist ⟨0, 0, 0, 0, 0⟩).p50 = 0 := by
  decide

/-- C8 amended: for a non-empty histogram the reported spike count equals the
overflow spikes already accumulated by the workers plus the counts of all
buckets from index `10 * p50 / w` on — the bucket containing the value
`10 * p50` and everything above it (for even widths these are exactly the
buckets whose midpoint exceeds `10 * p50`); and each overflowing sample makes
a worker increment both its overflow counter and its spike counter by
`SAMPLE_RATE`. -/
theorem spike_count_floor (w : Nat) (hist : List Nat) (s : LatencyStats)
    (ht : hist.sum ≠ 0) :
    (set_latencies w hist s).spikes =
      s.spikes + (hist.drop (10 * (set_latencies w hist s).p50 / w)).sum ∧
    (∀ (lat : Nat) (ws : WorkerStats), ws.histogram.length ≤ lat / w →
      (recordSample w lat ws).overflows = ws.overflows + SAMPLE_RATE ∧
      (recordSample w lat ws).spikes = ws.spikes + SAMPLE_RATE) := by
  constructor
  · simp only [set_latencies, if_neg ht]
    by_cases hsp :
        10 * (pctIdx ((hist.sum * 50 + 99) / 100) hist * w + w / 2) / w < hist.length
    · rw [if_pos hsp]
    · rw [if_neg hsp]
      have hnil : hist.drop
          (10 * (pctIdx ((hist.sum * 50 + 99) / 100) hist * w + w / 2) / w) = [] := by
        apply List.drop_eq_nil_of_le
        omega
      rw [hnil]
      simp
  · intro lat ws hlen
    rw [recordSample, if_neg (by omega)]
    exact ⟨rfl, rfl⟩

/-- Witness for C8 at bucket width 11 on `spikeHist`. -/
theorem spike_count_floor_witness :
    (set_latencies 11 spikeHist ⟨0, 0, 0, 0, 0⟩).spikes =
      0 + (spikeHist.drop (10 * (set_latencies 11 spikeHist ⟨0, 0, 0, 0, 0⟩).p50 / 11)).sum ∧
    (∀ (lat : Nat) (ws : WorkerStats), ws.histogram.length ≤ lat / 11 →
      (recordSample 11 lat ws).overflows = ws.overflows + SAMPLE_RATE ∧
      (recordSample 11 lat ws).spikes = ws.spikes + SAMPLE_RATE) :=
  spike_count_floor 11 spikeHist ⟨0, 0, 0, 0, 0⟩ (by decide)

/- ### C9: configuration validation -/

/-- C9 counterexample: a configuration whose histogram bucket width is
negative — claimed to be rejected ("non-positive histogram parameters") —
passes validation, because the source only tests `count() == 0`. -/
theorem validate_config_negative_width :
    validate_config negWidthConfig = Except.ok negWidthConfig ∧
    negWidthConfig.histogram_bucket_width < 0 :=
  ⟨rfl, by decide⟩

/-- C9 amended: validation accepts a configuration exactly when the producer
and consumer counts are nonzero, the capacity is a power of two, the warmup
is strictly below the total duration, the bucket width is nonzero (a negative
width passes) and the bucket count is nonzero; every rejection throws, so the
run does not start. -/
theorem validate_config_characterisation (c : Config) :
    validate_config c = Except.ok c ↔
      (c.num_producers ≠ 0 ∧ c.num_consumers ≠ 0 ∧ (∃ k, c.capacity = 2 ^ k) ∧
       c.warmup_ms < c.duration_ms ∧ c.histogram_bucket_width ≠ 0 ∧
       c.histogram_max_buckets ≠ 0) := by
  have hpow : is_power_of_two c.capacity = true ↔ ∃ k, c.capacity = 2 ^ k := by
    rw [is_power_of_two]
    constructor
    · intro h
      simp only [Bool.and_eq_true, bne_iff_ne, ne_eq, beq_iff_eq] at h
      exact pow2_of_land_pred_eq_zero h.1 h.2
    · rintro ⟨k, hk⟩
      simp only [Bool.and_eq_true, bne_iff_ne, ne_eq, beq_iff_eq]
      refine ⟨?_, ?_⟩
      · rw [hk]
        exact (Nat.two_pow_pos k).ne'
      · rw [hk]
        exact land_pred_eq_zero_of_pow2 k
  unfold validate_config
  constructor
  · intro h
    split_ifs at h with h1 h2 h3 h4 h5 h6
    refine ⟨h1, h2, hpow.mp ?_, by omega, h5, h6⟩
    simpa using h3
  · rintro ⟨h1, h2, h3, h4, h5, h6⟩
    rw [if_neg h1, if_neg h2, if_neg (by simp [hpow.mpr h3]), if_neg (by omega),
      if_neg h5, if_neg h6]

/- ### C10: allocation-size overflow in the constructor -/

/-- C10: `validate_capacity` accepts `2^61`, yet with a 16-byte slot (for
example `MpmcRing<uint64_t>`: an 8-byte sequence plus 8-byte storage) the
byte count `sizeof(Slot) * capacity` computed in 64-bit unsigned arithmetic
wraps to 0, strictly smaller than the mathematical product `16 * 2^61`. -/
theorem allocation_size_wraps :
    validate_capacity (2 ^ 61) = Except.ok (2 ^ 61) ∧
    allocation_bytes 16 (2 ^ 61) = 0 ∧
    allocation_bytes 16 (2 ^ 61) < 16 * 2 ^ 61 := by
  refine ⟨(validate_capacity_ok_iff (2 ^ 61)).2 ⟨by norm_num, 61, rfl⟩, ?_, ?_⟩
  · rw [allocation_bytes]
    decide
  · rw [allocation_bytes]
    decide

/-- Witness for C4: capacity 3 is rejected with the power-of-two error and
capacity 4 is accepted. -/
theorem make_ok_iff_witness :
    make Nat 3 = Except.error "capacity must be a power of 2" ∧
    (∃ r : MpmcRing Nat, make Nat 4 = Except.ok r) := by
  constructor
  · have h3 : ∀ k, (3 : Nat) ≠ 2 ^ k := by
      intro k
      match k with
      | 0 => decide
      | 1 => decide
      | (k + 2) =>
        have h4 : 2 ^ (k + 2) = 4 * 2 ^ k := by ring
        have h1 : 1 ≤ 2 ^ k := Nat.one_le_two_pow
        omega
    have h := (make_ok_iff Nat 3).2 (by rintro ⟨-, k, hk⟩; exact h3 k hk)
    simpa using h
  · exact (make_ok_iff Nat 4).1.2 ⟨by omega, 2, by norm_num⟩

end Mpmc
